import Mathlib

set_option maxHeartbeats 1000000

namespace Elmes

/-!  A shallow embedding of the elmes repository (Mars160/elmes).

Python strings are modelled as `List Char` (reachable from Lean `String`
through `String.data`); every string primitive used by the code
(`str.replace`, `str.split`, `str.strip`, substring search as performed by
`in`, `re.findall`) is implemented below by structural recursion so that
concrete instances evaluate inside the kernel.  -/

/-- Index of the first occurrence of `pat` in `s` (the position at which
Python `s.split(pat)` first cuts; `(firstOcc pat s).isSome` is Python
`pat in s`). -/
def firstOcc (pat : List Char) : List Char → Option Nat
  | [] => if pat.isPrefixOf ([] : List Char) then some 0 else none
  | c :: cs => if pat.isPrefixOf (c :: cs) then some 0 else (firstOcc pat cs).map (· + 1)

/-- Index of the last occurrence of `pat` in `s`. -/
def lastOcc (pat : List Char) : List Char → Option Nat
  | [] => if pat.isPrefixOf ([] : List Char) then some 0 else none
  | c :: cs =>
    match lastOcc pat cs with
    | some i => some (i + 1)
    | none => if pat.isPrefixOf (c :: cs) then some 0 else none

theorem firstOcc_nil (pat : List Char) :
    firstOcc pat [] = if pat.isPrefixOf ([] : List Char) then some 0 else none := rfl

theorem firstOcc_cons (pat : List Char) (c : Char) (cs : List Char) :
    firstOcc pat (c :: cs) =
      if pat.isPrefixOf (c :: cs) then some 0 else (firstOcc pat cs).map (· + 1) := rfl

theorem lastOcc_cons (pat : List Char) (c : Char) (cs : List Char) :
    lastOcc pat (c :: cs) =
      match lastOcc pat cs with
      | some i => some (i + 1)
      | none => if pat.isPrefixOf (c :: cs) then some 0 else none := rfl

theorem firstOcc_prefixAt {pat : List Char} :
    ∀ {s : List Char} {i : Nat}, firstOcc pat s = some i → pat.isPrefixOf (s.drop i) = true := by
  intro s
  induction s with
  | nil =>
    intro i h
    rw [firstOcc_nil] at h
    split at h
    · cases h; simpa using ‹pat.isPrefixOf ([] : List Char) = true›
    · cases h
  | cons c cs ih =>
    intro i h
    rw [firstOcc_cons] at h
    split at h
    · cases h; simpa using ‹pat.isPrefixOf (c :: cs) = true›
    · rcases Option.map_eq_some'.1 h with ⟨i', hi', rfl⟩
      simpa using ih hi'

theorem firstOcc_least {pat : List Char} :
    ∀ {s : List Char} {i : Nat}, firstOcc pat s = some i →
      ∀ j, j < i → pat.isPrefixOf (s.drop j) = false := by
  intro s
  induction s with
  | nil =>
    intro i h
    rw [firstOcc_nil] at h
    split at h
    · cases h; intro j hj; omega
    · cases h
  | cons c cs ih =>
    intro i h
    rw [firstOcc_cons] at h
    split at h
    · cases h; intro j hj; omega
    · rcases Option.map_eq_some'.1 h with ⟨i', hi', rfl⟩
      intro j hj
      match j with
      | 0 => exact Bool.eq_false_iff.mpr ‹¬pat.isPrefixOf (c :: cs) = true›
      | j' + 1 => simpa using ih hi' j' (by omega)

theorem firstOcc_none {pat : List Char} :
    ∀ {s : List Char}, firstOcc pat s = none →
      ∀ i, pat.isPrefixOf (s.drop i) = false := by
  intro s
  induction s with
  | nil =>
    intro h i
    rw [firstOcc_nil] at h
    split at h
    · cases h
    · rw [List.drop_nil]
      exact Bool.eq_false_iff.mpr ‹¬pat.isPrefixOf ([] : List Char) = true›
  | cons c cs ih =>
    intro h i
    rw [firstOcc_cons] at h
    split at h
    · cases h
    · match i with
      | 0 => exact Bool.eq_false_iff.mpr ‹¬pat.isPrefixOf (c :: cs) = true›
      | i' + 1 => exact ih (Option.map_eq_none'.1 h) i'

theorem firstOcc_isSome_of {pat s : List Char} {i : Nat}
    (h : pat.isPrefixOf (s.drop i) = true) : (firstOcc pat s).isSome := by
  cases hf : firstOcc pat s with
  | none => rw [firstOcc_none hf i] at h; cases h
  | some j => rfl

theorem firstOcc_le {pat : List Char} :
    ∀ {s : List Char} {i : Nat}, firstOcc pat s = some i → i ≤ s.length := by
  intro s
  induction s with
  | nil =>
    intro i h
    rw [firstOcc_nil] at h
    split at h
    · cases h; simp
    · cases h
  | cons c cs ih =>
    intro i h
    rw [firstOcc_cons] at h
    split at h
    · cases h; simp
    · rcases Option.map_eq_some'.1 h with ⟨i', hi', rfl⟩
      have := ih hi'
      simp
      omega

theorem lastOcc_prefixAt {pat : List Char} :
    ∀ {s : List Char} {i : Nat}, lastOcc pat s = some i → pat.isPrefixOf (s.drop i) = true := by
  intro s
  induction s with
  | nil =>
    intro i h
    simp only [lastOcc] at h
    split at h
    · cases h; simpa using ‹pat.isPrefixOf ([] : List Char) = true›
    · cases h
  | cons c cs ih =>
    intro i h
    rw [lastOcc_cons] at h
    split at h
    · rename_i i' hi'
      cases h
      simpa using ih hi'
    · split at h
      · cases h; simpa using ‹pat.isPrefixOf (c :: cs) = true›
      · cases h

theorem lastOcc_none {pat : List Char} :
    ∀ {s : List Char}, lastOcc pat s = none →
      ∀ i, pat.isPrefixOf (s.drop i) = false := by
  intro s
  induction s with
  | nil =>
    intro h i
    simp only [lastOcc] at h
    split at h
    · cases h
    · rw [List.drop_nil]
      exact Bool.eq_false_iff.mpr ‹¬pat.isPrefixOf ([] : List Char) = true›
  | cons c cs ih =>
    intro h i
    rw [lastOcc_cons] at h
    split at h
    · cases h
    · split at h
      · cases h
      · match i with
        | 0 => exact Bool.eq_false_iff.mpr ‹¬pat.isPrefixOf (c :: cs) = true›
        | i' + 1 => exact ih ‹lastOcc pat cs = none› i'

theorem lastOcc_isSome_of {pat s : List Char} {i : Nat}
    (h : pat.isPrefixOf (s.drop i) = true) : (lastOcc pat s).isSome := by
  cases hf : lastOcc pat s with
  | none => rw [lastOcc_none hf i] at h; cases h
  | some j => rfl

theorem isPrefixOf_nil_of_ne {pat : List Char} (hpat : pat ≠ []) :
    pat.isPrefixOf ([] : List Char) = false := by
  cases pat with
  | nil => exact absurd rfl hpat
  | cons a as => rfl

theorem lastOcc_greatest {pat : List Char} (hpat : pat ≠ []) :
    ∀ {s : List Char} {i : Nat}, lastOcc pat s = some i →
      ∀ j, i < j → pat.isPrefixOf (s.drop j) = false := by
  intro s
  induction s with
  | nil =>
    intro i h
    simp only [lastOcc] at h
    split at h
    · rw [isPrefixOf_nil_of_ne hpat] at *; simp_all
    · cases h
  | cons c cs ih =>
    intro i h j hj
    rw [lastOcc_cons] at h
    split at h
    · rename_i i' hi'
      cases h
      match j with
      | j' + 1 => simpa using ih hi' j' (by omega)
    · split at h
      · cases h
        match j with
        | j' + 1 => simpa using lastOcc_none ‹lastOcc pat cs = none› j'
      · cases h

theorem lastOcc_le {pat : List Char} :
    ∀ {s : List Char} {i : Nat}, lastOcc pat s = some i → i ≤ s.length := by
  intro s
  induction s with
  | nil =>
    intro i h
    simp only [lastOcc] at h
    split at h
    · cases h; simp
    · cases h
  | cons c cs ih =>
    intro i h
    rw [lastOcc_cons] at h
    split at h
    · rename_i i' hi'
      cases h
      have := ih hi'
      simp
      omega
    · split at h
      · cases h; simp
      · cases h

theorem firstOcc_append {pat post : List Char} :
    ∀ (pre : List Char),
      (∀ i, i < pre.length → pat.isPrefixOf ((pre ++ pat ++ post).drop i) = false) →
      firstOcc pat (pre ++ pat ++ post) = some pre.length := by
  intro pre
  induction pre with
  | nil =>
    intro _
    have hpfx : pat.isPrefixOf (pat ++ post) = true := by
      simp [List.isPrefixOf_iff_prefix]
    cases hs : pat ++ post with
    | nil =>
      rcases List.append_eq_nil.1 hs with ⟨hp, hq⟩
      subst hp
      subst hq
      simp [firstOcc_nil, List.isPrefixOf]
    | cons c cs =>
      rw [hs] at hpfx
      simp only [List.nil_append, hs, firstOcc_cons, hpfx, if_true, List.length_nil]
  | cons c pre' ih =>
    intro h
    have hstep : (c :: pre') ++ pat ++ post = c :: (pre' ++ pat ++ post) := rfl
    rw [hstep, firstOcc_cons]
    have h0 : pat.isPrefixOf (c :: (pre' ++ pat ++ post)) = false := by
      have := h 0 (by simp)
      simpa [hstep] using this
    rw [h0]
    simp only [Bool.false_eq_true, if_false]
    have ihh : firstOcc pat (pre' ++ pat ++ post) = some pre'.length := by
      apply ih
      intro i hi
      have := h (i + 1) (by simpa using Nat.succ_lt_succ hi)
      simpa [hstep] using this
    rw [ihh]
    simp

/-- Python `str.replace(pat, rep)`: replace every non-overlapping occurrence
of `pat`, scanning left to right.  The `fuel` argument only bounds the
recursion so the definition is structural (`fuel = s.length` always
suffices because every step consumes at least one character). -/
def replaceGo (pat rep : List Char) : Nat → List Char → List Char
  | 0, s => s
  | _ + 1, [] => []
  | fuel + 1, c :: cs =>
    if pat.isPrefixOf (c :: cs) then rep ++ replaceGo pat rep fuel ((c :: cs).drop pat.length)
    else c :: replaceGo pat rep fuel cs

/-- Python `s.replace(pat, rep)` (the callers of the model never pass an
empty `pat`; Python would interleave `rep` everywhere in that case). -/
def replaceList (s pat rep : List Char) : List Char :=
  if pat = [] then s else replaceGo pat rep s.length s

/-- `str.replace` lifted to Lean strings. -/
def strReplace (s pat rep : String) : String :=
  String.mk (replaceList s.data pat.data rep.data)

/-- Python `s.split(pat)` for a non-empty `pat`; `fuel` bounds the number of
cuts (`s.length + 1` always suffices). -/
def splitGo (pat : List Char) : Nat → List Char → List (List Char)
  | 0, s => [s]
  | fuel + 1, s =>
    match firstOcc pat s with
    | none => [s]
    | some i => s.take i :: splitGo pat fuel (s.drop (i + pat.length))

/-- Python `s.split(pat)` (the callers never pass an empty separator, for
which Python raises `ValueError`). -/
def splitList (s pat : List Char) : List (List Char) :=
  if pat = [] then [s] else splitGo pat (s.length + 1) s

/-- The default whitespace set of Python `str.strip`. -/
def pyWs (c : Char) : Bool :=
  c = ' ' || c = Char.ofNat 9 || c = Char.ofNat 10 || c = Char.ofNat 13 ||
    c = Char.ofNat 11 || c = Char.ofNat 12

/-- Python `s.strip()`. -/
def pyStrip (s : List Char) : List Char :=
  ((s.dropWhile pyWs).reverse.dropWhile pyWs).reverse

theorem replaceGo_id {pat rep : List Char} :
    ∀ (fuel : Nat) (s : List Char), firstOcc pat s = none →
      replaceGo pat rep fuel s = s := by
  intro fuel
  induction fuel with
  | zero => intro s _; rfl
  | succ n ih =>
    intro s h
    match s with
    | [] => rfl
    | c :: cs =>
      rw [firstOcc_cons] at h
      split at h
      · cases h
      · have hcs : firstOcc pat cs = none := Option.map_eq_none'.1 h
        have hpfx : pat.isPrefixOf (c :: cs) = false :=
          Bool.eq_false_iff.mpr ‹¬pat.isPrefixOf (c :: cs) = true›
        simp only [replaceGo, hpfx, Bool.false_eq_true, if_false]
        rw [ih cs hcs]

theorem replaceList_id {s pat rep : List Char} (h : firstOcc pat s = none) :
    replaceList s pat rep = s := by
  unfold replaceList
  split
  · rfl
  · exact replaceGo_id s.length s h

theorem splitGo_of_none {pat s : List Char} (h : firstOcc pat s = none) :
    ∀ fuel, splitGo pat fuel s = [s] := by
  intro fuel
  cases fuel with
  | zero => rfl
  | succ n => simp [splitGo, h]

theorem splitList_append (pat pre post : List Char) (hpat : pat ≠ [])
    (h1 : ∀ i, i < pre.length → pat.isPrefixOf ((pre ++ pat ++ post).drop i) = false)
    (h2 : firstOcc pat post = none) :
    splitList (pre ++ pat ++ post) pat = [pre, post] := by
  unfold splitList
  rw [if_neg hpat]
  have hlen : (pre ++ pat ++ post).length = pre.length + pat.length + post.length := by
    simp
    omega
  have hocc : firstOcc pat (pre ++ pat ++ post) = some pre.length :=
    firstOcc_append pre h1
  have htake : (pre ++ pat ++ post).take pre.length = pre := by
    rw [List.append_assoc, List.take_left]
  have hdrop : (pre ++ pat ++ post).drop (pre.length + pat.length) = post := by
    rw [List.append_assoc]
    rw [show pre.length + pat.length = (pre ++ pat).length by simp]
    rw [← List.append_assoc, List.drop_left]
  rw [show (pre ++ pat ++ post).length + 1 = (pre.length + pat.length + post.length) + 1 by
    rw [hlen]]
  simp only [splitGo, hocc, htake, hdrop]
  rw [splitGo_of_none h2]

/-! ## `replace_prompt` (src/src/elmes/utils.py, lines 19-47)

A prompt is either a plain dict `\x7brole, content\x7d` (whose `content` key
can in principle be absent, which matters when outputs are fed back in) or a
pydantic `Prompt` object; the function takes a single prompt or a list and
returns a list of plain dicts.  `none` at the outer level models a raised
Python exception (`KeyError` on a dict without `content`). -/

inductive PromptIn where
  | pdict (role : String) (content : Option String)
  | pobj (role : String) (content : String)
deriving DecidableEq

/-- An output dict of `replace_prompt`: `role` always present, `content`
possibly absent. -/
structure PDictOut where
  role : String
  content : Option String
deriving DecidableEq

/-- Python `"\x7b" + k + "\x7d"`: the placeholder for key `k`. -/
def braceKey (k : String) : String := "\x7b" ++ k ++ "\x7d"

/-- Dict branch of `replace_prompt` (lines 27-31 and 38-42): each loop
iteration re-reads the ORIGINAL `p["content"]` and overwrites `r["content"]`,
so only the last map entry survives, and with an empty map the `content` key
of `r` is never set.  `none` is the `KeyError` on a dict without `content`. -/
def replaceDictC (content : Option String) (pm : List (String × String)) :
    Option (Option String) :=
  match pm, content with
  | [], _ => some none
  | _ :: _, none => none
  | _ :: _, some c =>
    some (pm.foldl (fun _ kv => some (strReplace c (braceKey kv.1) kv.2)) none)

/-- Prompt-object branch of `replace_prompt` (lines 32-35 and 43-46):
`p.content = p.content.replace(...)` accumulates over the map. -/
def replaceObjC (content : String) (pm : List (String × String)) : String :=
  pm.foldl (fun c kv => strReplace c (braceKey kv.1) kv.2) content

/-- One prompt through `replace_prompt`. -/
def replaceOne (p : PromptIn) (pm : List (String × String)) : Option PDictOut :=
  match p with
  | .pdict role content => (replaceDictC content pm).map (fun c => ⟨role, c⟩)
  | .pobj role content => some ⟨role, some (replaceObjC content pm)⟩

/-- `replace_prompt`: list input or single input. -/
def replacePrompt (p : List PromptIn ⊕ PromptIn) (pm : List (String × String)) :
    Option (List PDictOut) :=
  match p with
  | .inl ps => ps.mapM (fun q => replaceOne q pm)
  | .inr q => (replaceOne q pm).map (fun d => [d])

/-- An output dict fed back into `replace_prompt` as an input prompt. -/
def outToIn (d : PDictOut) : PromptIn := .pdict d.role d.content

theorem foldl_overwrite {α β : Type} (f : α → β) :
    ∀ (l : List α) (init : β), l ≠ [] →
      some (l.foldl (fun _ a => f a) init) = (l.getLast?).map f := by
  intro l
  induction l with
  | nil => intro init h; exact absurd rfl h
  | cons a t ih =>
    intro init _
    cases t with
    | nil => rfl
    | cons b t2 =>
      rw [List.foldl_cons, List.getLast?_cons_cons]
      exact ih (f a) (by simp)

theorem replaceOne_content_isSome {q : PromptIn} {pm : List (String × String)}
    {d : PDictOut} (h : replaceOne q pm = some d) (hpm : pm ≠ []) :
    ∃ c, d.content = some c := by
  match q with
  | .pobj role content =>
    simp only [replaceOne, Option.some.injEq] at h
    exact ⟨replaceObjC content pm, by rw [← h]⟩
  | .pdict role content =>
    simp only [replaceOne] at h
    rcases Option.map_eq_some'.1 h with ⟨oc, hoc, rfl⟩
    match pm, content with
    | [], _ => exact absurd rfl hpm
    | kv :: pm', none => simp [replaceDictC] at hoc
    | kv :: pm', some c =>
      simp only [replaceDictC, Option.some.injEq] at hoc
      rw [← hoc]
      have hne : kv :: pm' ≠ ([] : List (String × String)) := by simp
      have := foldl_overwrite (fun kv2 => some (strReplace c (braceKey kv2.1) kv2.2))
        (kv :: pm') none hne
      rcases List.getLast?_eq_getLast (kv :: pm') hne ▸ this with h2
      refine ⟨strReplace c (braceKey ((kv :: pm').getLast hne).1) ((kv :: pm').getLast hne).2, ?_⟩
      simpa using h2

theorem strMk_data : ∀ s : String, String.mk s.data = s := fun ⟨_⟩ => rfl

theorem mapM_replaceOne_mem {pm : List (String × String)} :
    ∀ (ps : List PromptIn) (out : List PDictOut),
      ps.mapM (fun q => replaceOne q pm) = some out →
      ∀ d ∈ out, ∃ q, replaceOne q pm = some d := by
  intro ps
  induction ps with
  | nil =>
    intro out h d hd
    rw [List.mapM_nil] at h
    cases h
    simp at hd
  | cons a t ih =>
    intro out h d hd
    rw [List.mapM_cons] at h
    cases ha : replaceOne a pm with
    | none => rw [ha] at h; cases h
    | some x =>
      rw [ha] at h
      cases ht : t.mapM (fun q => replaceOne q pm) with
      | none => rw [ht] at h; cases h
      | some xs =>
        rw [ht] at h
        cases h
        rcases List.mem_cons.1 hd with rfl | hmem
        · exact ⟨a, ha⟩
        · exact ih xs ht d hmem

theorem mapM_replaceOne_id {pm : List (String × String)} :
    ∀ (out : List PDictOut), (∀ d ∈ out, replaceOne (outToIn d) pm = some d) →
      (out.map outToIn).mapM (fun q => replaceOne q pm) = some out := by
  intro out
  induction out with
  | nil => intro _; rfl
  | cons d t ih =>
    intro h
    have hd : replaceOne (outToIn d) pm = some d := h d (by simp)
    have ht : (t.map outToIn).mapM (fun q => replaceOne q pm) = some t :=
      ih (fun e he => h e (by simp [he]))
    rw [List.map_cons, List.mapM_cons, hd]
    show (t.map outToIn).mapM (fun q => replaceOne q pm) >>= (fun xs => pure (d :: xs)) =
      some (d :: t)
    rw [ht]
    rfl

theorem replaceOne_refeed {pm : List (String × String)} {k v : String}
    (hpm : pm.getLast? = some (k, v)) (d : PDictOut) (c : String)
    (hc : d.content = some c) (hocc : firstOcc (braceKey k).data c.data = none) :
    replaceOne (outToIn d) pm = some d := by
  match pm, hpm with
  | kv :: pm', hpm =>
    obtain ⟨dr, dc⟩ := d
    simp only [PDictOut.mk.injEq] at hc
    subst hc
    have hne : kv :: pm' ≠ ([] : List (String × String)) := by simp
    have hfold :
        some ((kv :: pm').foldl (fun _ kv2 => some (strReplace c (braceKey kv2.1) kv2.2)) none) =
          ((kv :: pm').getLast?).map (fun kv2 => some (strReplace c (braceKey kv2.1) kv2.2)) :=
      foldl_overwrite _ (kv :: pm') none hne
    rw [hpm] at hfold
    have hrep : strReplace c (braceKey k) v = c := by
      unfold strReplace
      rw [replaceList_id hocc]
    simp only [Option.map_some'] at hfold
    have hfold2 :
        (kv :: pm').foldl (fun _ kv2 => some (strReplace c (braceKey kv2.1) kv2.2)) none =
          some (strReplace c (braceKey k) v) := by
      injection hfold
    simp only [outToIn, replaceOne, replaceDictC, hfold2, hrep, Option.map_some']

/-- C6 helper: a successful first application with a non-empty map always
produces dicts that do have a `content` entry, and refeeding them is the
identity when the last placeholder no longer occurs. -/
theorem replacePrompt_refeed (p : List PromptIn ⊕ PromptIn)
    (pm : List (String × String)) (out : List PDictOut) (k v : String)
    (hpm : pm.getLast? = some (k, v))
    (h1 : replacePrompt p pm = some out)
    (hocc : ∀ d ∈ out, ∀ c, d.content = some c → firstOcc (braceKey k).data c.data = none) :
    replacePrompt (.inl (out.map outToIn)) pm = some out := by
  have hpm' : pm ≠ [] := by
    intro heq
    rw [heq] at hpm
    cases hpm
  have horigin : ∀ d ∈ out, ∃ q, replaceOne q pm = some d := by
    match p with
    | .inl ps => exact mapM_replaceOne_mem ps out h1
    | .inr q =>
      simp only [replacePrompt] at h1
      rcases Option.map_eq_some'.1 h1 with ⟨d0, hd0, rfl⟩
      intro d hd
      simp at hd
      subst hd
      exact ⟨q, hd0⟩
  show (out.map outToIn).mapM (fun q => replaceOne q pm) = some out
  apply mapM_replaceOne_id
  intro d hd
  rcases horigin d hd with ⟨q, hq⟩
  rcases replaceOne_content_isSome hq hpm' with ⟨c, hc⟩
  exact replaceOne_refeed hpm d c hc (hocc d hd c hc)

/-- C3: the code evaluated at the failing input.  For a dict-typed prompt with
content `"\x7ba\x7d \x7bb\x7d"` and map `a ↦ x, b ↦ y`, only the last map key
is substituted (the loop re-reads the original content each iteration), so the
`\x7ba\x7d` placeholder survives; the Prompt-object branch of the very same
function substitutes both keys, which is what the spec contract states. -/
theorem replacePrompt_dict_last_key_only :
    replacePrompt (.inr (.pdict "user" (some "\x7ba\x7d \x7bb\x7d")))
        [("a", "x"), ("b", "y")] =
      some [⟨"user", some "\x7ba\x7d y"⟩] ∧
    replacePrompt (.inr (.pobj "user" "\x7ba\x7d \x7bb\x7d"))
        [("a", "x"), ("b", "y")] =
      some [⟨"user", some "x y"⟩] := by
  decide

/-- C6 (counterexample): templating a dict prompt with the empty map is not an
identity transform (the returned dict has no `content` at all), and templating
twice with the map `a ↦ x\x7ba\x7d` differs from templating once (the
substituted value reintroduces the placeholder, which the second application
substitutes again). -/
theorem replacePrompt_round_trip_fails :
    (replacePrompt (.inr (.pdict "user" (some "hi"))) [] = some [⟨"user", none⟩] ∧
      (⟨"user", none⟩ : PDictOut) ≠ ⟨"user", some "hi"⟩) ∧
    (replacePrompt (.inr (.pobj "u" "\x7ba\x7d")) [("a", "x\x7ba\x7d")] =
        some [⟨"u", some "x\x7ba\x7d"⟩] ∧
      replacePrompt (.inl ([(⟨"u", some "x\x7ba\x7d"⟩ : PDictOut)].map outToIn))
          [("a", "x\x7ba\x7d")] =
        some [⟨"u", some "xx\x7ba\x7d"⟩] ∧
      some [(⟨"u", some "xx\x7ba\x7d"⟩ : PDictOut)] ≠ some [⟨"u", some "x\x7ba\x7d"⟩]) := by
  decide

/-- C6 (amended): templating a Prompt-typed prompt with the empty map returns
its role and content unchanged; and for a non-empty map, re-templating the
returned dicts with the same map reproduces them exactly whenever the last map
entry placeholder no longer occurs in the once-templated contents — a
sufficient condition (in particular it holds whenever no substituted value
reintroduces a placeholder), while general idempotence fails as the
counterexample shows. -/
theorem replacePrompt_empty_map_and_idem :
    (∀ (r c : String), replacePrompt (.inr (.pobj r c)) [] = some [⟨r, some c⟩]) ∧
    (∀ (p : List PromptIn ⊕ PromptIn) (pm : List (String × String))
        (out : List PDictOut) (k v : String),
      pm.getLast? = some (k, v) →
      replacePrompt p pm = some out →
      (∀ d ∈ out, ∀ c, d.content = some c → firstOcc (braceKey k).data c.data = none) →
      replacePrompt (.inl (out.map outToIn)) pm = some out) := by
  constructor
  · intro r c; rfl
  · intro p pm out k v hpm h1 hocc
    exact replacePrompt_refeed p pm out k v hpm h1 hocc

theorem replacePrompt_empty_map_and_idem_witness :
    replacePrompt (.inr (.pobj "role1" "hello")) [] = some [⟨"role1", some "hello"⟩] ∧
    replacePrompt (.inl ([(⟨"u", some "x"⟩ : PDictOut)].map outToIn)) [("a", "x")] =
      some [⟨"u", some "x"⟩] := by
  constructor
  · exact replacePrompt_empty_map_and_idem.1 "role1" "hello"
  · refine replacePrompt_empty_map_and_idem.2 (.inr (.pobj "u" "\x7ba\x7d")) [("a", "x")]
      [⟨"u", some "x"⟩] "a" "x" rfl (by decide) ?_
    intro d hd c hc
    simp only [List.mem_singleton] at hd
    subst hd
    simp only [Option.some.injEq] at hc
    subst hc
    decide

/-! ## `chatbot` (src/src/elmes/agent.py, lines 24-43; identical in
src/elmes/agent.py, lines 26-45)

A langchain message carries a message type (`"ai"`, `"human"`, or the role of
a seed prompt), a content string, and an optional speaker `name`. -/

structure PyMsg where
  mtype : String
  content : String
  name : Option String
deriving DecidableEq, Inhabited

/-- The perspective rewrite inside `chatbot`: a message whose `name` equals
the acting agent becomes an `AIMessage` (type `"ai"`, own turn), every other
message becomes a `HumanMessage` (type `"human"`).  Content unchanged, no
`name` on the rewrite. -/
def perspective (agentName : String) (item : PyMsg) : PyMsg :=
  if item.name = some agentName then ⟨"ai", item.content, none⟩
  else ⟨"human", item.content, none⟩

/-- The model input `n_m` of `chatbot`: the seed prompt alone on an empty
state, otherwise the seed prompt prepended to the rewritten history. -/
def chatbotInput (acPrompt : List PyMsg) (agentName : String) (msgs : List PyMsg) :
    List PyMsg :=
  if msgs = [] then acPrompt
  else acPrompt ++ msgs.map (perspective agentName)

/-- `chatbot`: invokes the opaque model handle on `n_m`, tags the reply with
the agent name (`r.name = agent_name`) and returns it as the sole appended
message. -/
def chatbot (acPrompt : List PyMsg) (agentName : String) (invoke : List PyMsg → PyMsg)
    (msgs : List PyMsg) : List PyMsg :=
  let r := invoke (chatbotInput acPrompt agentName msgs)
  [⟨r.mtype, r.content, some agentName⟩]

/-- C1: on a state with at least one prior message the model input is the seed
prompt followed by the rewritten history, where the message at offset `i` is
the self/AI-role rewrite when its recorded speaker equals the acting agent and
the other/human-role rewrite otherwise, content unchanged; the reply is tagged
with the agent name and returned as the sole appended message; and on an empty
state the seed prompt alone is the model input verbatim. -/
theorem chatbot_turn (acPrompt : List PyMsg) (agentName : String)
    (invoke : List PyMsg → PyMsg) (msgs : List PyMsg) (hne : msgs ≠ []) :
    (chatbotInput acPrompt agentName msgs).take acPrompt.length = acPrompt ∧
    (chatbotInput acPrompt agentName msgs).length = acPrompt.length + msgs.length ∧
    (∀ i, i < msgs.length →
      (chatbotInput acPrompt agentName msgs)[acPrompt.length + i]? =
        (msgs[i]?).map (fun m =>
          if m.name = some agentName then ⟨"ai", m.content, none⟩
          else ⟨"human", m.content, none⟩)) ∧
    chatbot acPrompt agentName invoke msgs =
      [⟨(invoke (chatbotInput acPrompt agentName msgs)).mtype,
        (invoke (chatbotInput acPrompt agentName msgs)).content, some agentName⟩] ∧
    chatbotInput acPrompt agentName [] = acPrompt := by
  have hinput : chatbotInput acPrompt agentName msgs =
      acPrompt ++ msgs.map (perspective agentName) := by
    unfold chatbotInput
    rw [if_neg hne]
  refine ⟨?_, ?_, ?_, rfl, rfl⟩
  · rw [hinput, List.take_left]
  · rw [hinput]; simp
  · intro i hi
    rw [hinput]
    rw [List.getElem?_append_right (by simp)]
    rw [show acPrompt.length + i - acPrompt.length = i by omega]
    rw [List.getElem?_map]
    rfl

/-- C1 witness: the spec example — with prior messages from `teacher` and
`student`, when agent `teacher` computes its turn the first rewritten message
is the self/AI one and the second the other/human one. -/
theorem chatbot_turn_witness :
    (chatbotInput [⟨"system", "seed", none⟩] "teacher"
        [⟨"ai", "m1", some "teacher"⟩, ⟨"ai", "m2", some "student"⟩])[1 + 0]? =
      some ⟨"ai", "m1", none⟩ ∧
    (chatbotInput [⟨"system", "seed", none⟩] "teacher"
        [⟨"ai", "m1", some "teacher"⟩, ⟨"ai", "m2", some "student"⟩])[1 + 1]? =
      some ⟨"human", "m2", none⟩ := by
  have h := chatbot_turn [⟨"system", "seed", none⟩] "teacher" (fun _ => ⟨"ai", "x", none⟩)
    [⟨"ai", "m1", some "teacher"⟩, ⟨"ai", "m2", some "student"⟩] (by decide)
  have h1 := h.2.2.1 0 (by decide)
  have h2 := h.2.2.1 1 (by decide)
  constructor
  · simpa using h1
  · simpa using h2

/-! ## `extract`, union mode (src/src/elmes/utils.py, lines 50-78;
src/elmes/utils/__init__.py, lines 14-44) -/

/-- `itertools.product(*values)`: the Cartesian product of the value lists,
rightmost dimension varying fastest. -/
def pyProduct {α : Type} : List (List α) → List (List α)
  | [] => [[]]
  | l :: ls => l.flatMap (fun x => (pyProduct ls).map (fun rest => x :: rest))

/-- The union branch of `extract`: one `dict(zip(keys, combo))` per combo of
`itertools.product(*values)`, keys in their declared order. -/
def extractUnion {α : Type} (content : List (String × List α)) :
    List (List (String × α)) :=
  (pyProduct (content.map Prod.snd)).map (fun c => (content.map Prod.fst).zip c)

theorem pyProduct_length {α : Type} :
    ∀ (ls : List (List α)), (pyProduct ls).length = (ls.map List.length).prod := by
  intro ls
  induction ls with
  | nil => rfl
  | cons l ls ih =>
    simp only [pyProduct, List.length_flatMap, List.map_map, List.map_cons, List.prod_cons]
    have hconst : ∀ x ∈ l,
        (List.length ∘ fun x => (pyProduct ls).map (fun rest => x :: rest)) x =
          (ls.map List.length).prod := by
      intro x _
      simp [ih]
    rw [List.map_congr_left hconst]
    simp [List.map_const', List.sum_replicate, smul_eq_mul]

theorem pyProduct_mem_length {α : Type} :
    ∀ (ls : List (List α)) (c : List α), c ∈ pyProduct ls → c.length = ls.length := by
  intro ls
  induction ls with
  | nil =>
    intro c hc
    simp only [pyProduct, List.mem_singleton] at hc
    subst hc
    rfl
  | cons l ls ih =>
    intro c hc
    simp only [pyProduct, List.mem_flatMap, List.mem_map] at hc
    rcases hc with ⟨x, _, rest, hrest, rfl⟩
    simp [ih rest hrest]

theorem extractUnion_two {α : Type} (k1 k2 : String) (xs ys : List α) :
    extractUnion [(k1, xs), (k2, ys)] =
      xs.flatMap (fun x => ys.map (fun y => [(k1, x), (k2, y)])) := by
  simp only [extractUnion, List.map_cons, List.map_nil, pyProduct, List.map_flatMap,
    List.map_map, List.flatMap_map]
  simp only [← List.map_eq_flatMap]
  simp [List.zip_cons_cons]

theorem count_map_pair {α : Type} [DecidableEq α] (k1 k2 : String) (a x y : α) :
    ∀ ys : List α,
      (ys.map (fun q => [(k1, a), (k2, q)])).count [(k1, x), (k2, y)] =
        if a = x then ys.count y else 0 := by
  intro ys
  induction ys with
  | nil => simp
  | cons b ys ihy =>
    rw [List.map_cons, List.count_cons, ihy]
    by_cases hax : a = x
    · subst hax
      by_cases hby : y = b
      · subst hby
        simp [List.count_cons]
      · have hyb : b ≠ y := fun h => hby h.symm
        simp [List.count_cons, hby, hyb]
    · have hxa : x ≠ a := fun h => hax h.symm
      simp [List.count_cons, hax, hxa]

theorem extractUnion_count {α : Type} [DecidableEq α] (k1 k2 : String)
    (xs ys : List α) (x y : α) :
    (extractUnion [(k1, xs), (k2, ys)]).count [(k1, x), (k2, y)] =
      xs.count x * ys.count y := by
  rw [extractUnion_two]
  induction xs with
  | nil => simp
  | cons a xs ih =>
    rw [List.flatMap_cons, List.count_append, ih, count_map_pair k1 k2 a x y ys]
    by_cases hax : a = x
    · subst hax
      simp [List.count_cons]
      ring
    · have hxa : x ≠ a := fun h => hax h.symm
      simp [List.count_cons, hax, hxa]

theorem extractUnion_keys {α : Type} (content : List (String × List α)) :
    ∀ e ∈ extractUnion content, e.map Prod.fst = content.map Prod.fst := by
  intro e he
  simp only [extractUnion, List.mem_map] at he
  rcases he with ⟨c, hc, rfl⟩
  have hlen : c.length = content.length := by
    simpa using pyProduct_mem_length (content.map Prod.snd) c hc
  rw [List.map_fst_zip]
  simp [hlen]

/-- C2: the union-mode task expander emits the full Cartesian product — the
output length is the product of the dimension sizes (`m × n` for two
dimensions), every emitted map lists its keys in the declared dimension order,
empty content yields exactly one empty map, and, for two dimensions, each
combination `(x, y)` occurs `count x · count y` times — hence exactly once
when the value lists are duplicate-free and the combination is drawn from
them. -/
theorem extractUnion_cartesian :
    (∀ (content : List (String × List String)),
      (extractUnion content).length = (content.map (fun kv => kv.2.length)).prod) ∧
    (∀ (content : List (String × List String)), ∀ e ∈ extractUnion content,
      e.map Prod.fst = content.map Prod.fst) ∧
    (extractUnion ([] : List (String × List String)) = [[]]) ∧
    (∀ (k1 k2 : String) (xs ys : List String) (x y : String),
      (extractUnion [(k1, xs), (k2, ys)]).count [(k1, x), (k2, y)] =
        xs.count x * ys.count y) ∧
    (∀ (k1 k2 : String) (xs ys : List String) (x y : String),
      xs.Nodup → ys.Nodup → x ∈ xs → y ∈ ys →
      (extractUnion [(k1, xs), (k2, ys)]).count [(k1, x), (k2, y)] = 1) := by
  refine ⟨?_, extractUnion_keys, rfl, fun k1 k2 xs ys x y => extractUnion_count k1 k2 xs ys x y,
    ?_⟩
  · intro content
    unfold extractUnion
    rw [List.length_map, pyProduct_length, List.map_map]
    rfl
  · intro k1 k2 xs ys x y hnx hny hx hy
    rw [extractUnion_count k1 k2 xs ys x y]
    rw [List.count_eq_one_of_mem hnx hx, List.count_eq_one_of_mem hny hy]

theorem extractUnion_cartesian_witness :
    (extractUnion [("a", ["1", "2", "3"]), ("b", ["4", "5"])]).length = 6 ∧
    (extractUnion [("a", ["1", "2", "3"]), ("b", ["4", "5"])]).count
        [("a", "2"), ("b", "5")] = 1 := by
  constructor
  · have h := extractUnion_cartesian.1 [("a", ["1", "2", "3"]), ("b", ["4", "5"])]
    simpa using h
  · exact extractUnion_cartesian.2.2.2.2 "a" "b" ["1", "2", "3"] ["4", "5"] "2" "5"
      (by decide) (by decide) (by decide) (by decide)

/-! ## Prompt-contract extraction in `evaluate`
(src/src/elmes/evaluation.py, lines 82-89) -/

def startMark : List Char := "<START OUTPUT>".data

def endMark : List Char := "<END OUTPUT>".data

/-- `re.findall(r"<START OUTPUT>(.*)<END OUTPUT>", response, re.DOTALL)`
followed by `match[-1]`.  With this greedy pattern `findall` returns at most
one match: the engine anchors at the first occurrence of the start marker and
the greedy `.*` backtracks to the last occurrence of the end marker; no end
marker remains after that point, so no further match exists and `match[-1]` is
that single capture.  `none` models the raised
`ValueError("Output does not contain ...")`. -/
def regexLastMatch (s : List Char) : Option (List Char) :=
  match lastOcc endMark s with
  | none => none
  | some j =>
    match firstOcc startMark s with
    | none => none
    | some i =>
      if i + startMark.length ≤ j then
        some ((s.drop (i + startMark.length)).take (j - (i + startMark.length)))
      else none

/-- The prompt-contract extraction step of `evaluate`, at the string level
(the `json.loads` of the captured region is outside the model). -/
def promptExtract (response : String) : Option String :=
  (regexLastMatch response.data).map String.mk

/-- Follows the words of the spec, not the code: the marker-delimited regions
of a response, scanning left to right, each region closed by the first end
marker after its start marker; the claim says the extractor takes the last
one.  `fuel = response.length` suffices since every step consumes at least one
character. -/
def specRegionsGo : Nat → List Char → List (List Char)
  | 0, _ => []
  | fuel + 1, s =>
    match firstOcc startMark s with
    | none => []
    | some i =>
      let rest := s.drop (i + startMark.length)
      match firstOcc endMark rest with
      | none => []
      | some j => rest.take j :: specRegionsGo fuel (rest.drop (j + endMark.length))

/-- The last marker-delimited region of a response, as the spec words it. -/
def specLastRegion (response : String) : Option String :=
  ((specRegionsGo response.data.length response.data).getLast?).map String.mk

/-- A decidable check for "some start marker is followed by some end marker":
the condition under which the greedy regex matches at all. -/
def hasPair (s : List Char) : Bool :=
  (List.range (s.length + 1)).any (fun i =>
    startMark.isPrefixOf (s.drop i) &&
      (List.range (s.length + 1)).any (fun j =>
        decide (i + startMark.length ≤ j) && endMark.isPrefixOf (s.drop j)))

theorem prefixAt_le {pat s : List Char} {i : Nat} (hpat : pat ≠ [])
    (h : pat.isPrefixOf (s.drop i) = true) : i ≤ s.length := by
  by_contra hlt
  push_neg at hlt
  have hnil : s.drop i = [] := List.drop_eq_nil_of_le (by omega)
  rw [hnil, isPrefixOf_nil_of_ne hpat] at h
  cases h

theorem hasPair_iff (s : List Char) :
    hasPair s = true ↔
      ∃ i j, startMark.isPrefixOf (s.drop i) = true ∧
        endMark.isPrefixOf (s.drop j) = true ∧ i + startMark.length ≤ j := by
  unfold hasPair
  rw [List.any_eq_true]
  constructor
  · rintro ⟨i, _, hcond⟩
    rw [Bool.and_eq_true] at hcond
    obtain ⟨h1, h2⟩ := hcond
    rw [List.any_eq_true] at h2
    obtain ⟨j, _, hc2⟩ := h2
    rw [Bool.and_eq_true] at hc2
    obtain ⟨hle, h3⟩ := hc2
    exact ⟨i, j, h1, h3, of_decide_eq_true hle⟩
  · rintro ⟨i, j, h1, h2, hle⟩
    have hi : i ≤ s.length := prefixAt_le (by decide) h1
    have hj : j ≤ s.length := prefixAt_le (by decide) h2
    refine ⟨i, List.mem_range.2 (by omega), ?_⟩
    rw [Bool.and_eq_true]
    refine ⟨h1, ?_⟩
    rw [List.any_eq_true]
    refine ⟨j, List.mem_range.2 (by omega), ?_⟩
    rw [Bool.and_eq_true]
    exact ⟨decide_eq_true hle, h2⟩

/-- C4 (counterexample): a response with two well-formed marker pairs.  The
last marker-delimited region is `\x7b"b":2\x7d`, but the code captures from
the first start marker to the last end marker, spanning both pairs, so the
claim "parses exactly the last marker-delimited region" fails. -/
theorem promptExtract_not_last_region :
    promptExtract
        "<START OUTPUT>\x7b\"a\":1\x7d<END OUTPUT><START OUTPUT>\x7b\"b\":2\x7d<END OUTPUT>" =
      some "\x7b\"a\":1\x7d<END OUTPUT><START OUTPUT>\x7b\"b\":2\x7d" ∧
    specLastRegion
        "<START OUTPUT>\x7b\"a\":1\x7d<END OUTPUT><START OUTPUT>\x7b\"b\":2\x7d<END OUTPUT>" =
      some "\x7b\"b\":2\x7d" ∧
    promptExtract
        "<START OUTPUT>\x7b\"a\":1\x7d<END OUTPUT><START OUTPUT>\x7b\"b\":2\x7d<END OUTPUT>" ≠
      specLastRegion
        "<START OUTPUT>\x7b\"a\":1\x7d<END OUTPUT><START OUTPUT>\x7b\"b\":2\x7d<END OUTPUT>" := by
  refine ⟨by decide, by decide, by decide⟩

/-- C4 (amended): the extractor fails (raises) exactly when no start marker is
followed by an end marker; when it succeeds, the captured region runs from the
FIRST start marker to the LAST end marker of the whole response — which equals
the sole delimited region when exactly one pair is present, as on the spec
example, whose delimited JSON text is captured verbatim. -/
theorem promptExtract_first_start_last_end :
    (∀ s : String, promptExtract s = none ↔ hasPair s.data = false) ∧
    (∀ (s r : String), promptExtract s = some r →
      ∃ i j, (startMark.isPrefixOf (s.data.drop i) = true ∧
          ∀ i2, i2 < i → startMark.isPrefixOf (s.data.drop i2) = false) ∧
        (endMark.isPrefixOf (s.data.drop j) = true ∧
          ∀ j2, j < j2 → endMark.isPrefixOf (s.data.drop j2) = false) ∧
        i + startMark.length ≤ j ∧
        r = String.mk ((s.data.drop (i + startMark.length)).take
          (j - (i + startMark.length)))) ∧
    promptExtract "blah <START OUTPUT>\x7b\"a\":1\x7d<END OUTPUT> blah" =
      some "\x7b\"a\":1\x7d" := by
  refine ⟨?_, ?_, by decide⟩
  · intro s
    unfold promptExtract regexLastMatch
    cases hlast : lastOcc endMark s.data with
    | none =>
      simp only [Option.map_none']
      constructor
      · intro _
        rw [Bool.eq_false_iff]
        intro htrue
        rcases (hasPair_iff s.data).1 htrue with ⟨i, j, _, h2, _⟩
        rw [lastOcc_none hlast j] at h2
        cases h2
      · intro _
        trivial
    | some j =>
      cases hfirst : firstOcc startMark s.data with
      | none =>
        simp only [Option.map_none']
        constructor
        · intro _
          rw [Bool.eq_false_iff]
          intro htrue
          rcases (hasPair_iff s.data).1 htrue with ⟨i, j2, h1, _, _⟩
          rw [firstOcc_none hfirst i] at h1
          cases h1
        · intro _
          trivial
      | some i =>
        by_cases hle : i + startMark.length ≤ j
        · simp only [hle, ite_true, Option.map_some']
          constructor
          · intro habs
            cases habs
          · intro hfalse
            have htrue : hasPair s.data = true := (hasPair_iff s.data).2
              ⟨i, j, firstOcc_prefixAt hfirst, lastOcc_prefixAt hlast, hle⟩
            rw [htrue] at hfalse
            cases hfalse
        · simp only [hle, ite_false, Option.map_none']
          constructor
          · intro _
            rw [Bool.eq_false_iff]
            intro htrue
            rcases (hasPair_iff s.data).1 htrue with ⟨i2, j2, h1, h2, hle2⟩
            have hii : i ≤ i2 := by
              by_contra hlt
              push_neg at hlt
              rw [firstOcc_least hfirst i2 hlt] at h1
              cases h1
            have hjj : j2 ≤ j := by
              by_contra hlt
              push_neg at hlt
              rw [lastOcc_greatest (by decide) hlast j2 hlt] at h2
              cases h2
            omega
          · intro _
            trivial
  · intro s r h
    unfold promptExtract regexLastMatch at h
    cases hlast : lastOcc endMark s.data with
    | none => rw [hlast] at h; cases h
    | some j =>
      rw [hlast] at h
      cases hfirst : firstOcc startMark s.data with
      | none => rw [hfirst] at h; cases h
      | some i =>
        rw [hfirst] at h
        by_cases hle : i + startMark.length ≤ j
        · simp only [hle, ite_true, Option.map_some', Option.some.injEq] at h
          refine ⟨i, j,
            ⟨firstOcc_prefixAt hfirst, fun i2 h2 => firstOcc_least hfirst i2 h2⟩,
            ⟨lastOcc_prefixAt hlast, fun j2 hj2 => lastOcc_greatest (by decide) hlast j2 hj2⟩,
            hle, h.symm⟩
        · simp only [hle, ite_false, Option.map_none'] at h
          exact Option.noConfusion h

theorem promptExtract_first_start_last_end_witness :
    promptExtract "nothing to see here" = none := by
  exact (promptExtract_first_start_last_end.1 "nothing to see here").mpr (by decide)

/-! ## Score aggregation in `eval_logic` (src/src/elmes/cli.py, lines 175-225)

Python float arithmetic is modelled over the rationals.  `evals` is the list
of per-task metric value rows (after `float(c)`), `k` the number of metric
columns (taken from the first non-empty record); the matrix has `k + 1`
columns, the trailing one holding the row average. -/

def listMean (l : List ℚ) : ℚ := l.sum / (l.length : ℚ)

/-- The metric part of one matrix row: the row values written over the
zero-initialised row (cli.py, lines 195-203). -/
def fillRow (k : Nat) (vals : List ℚ) : List ℚ :=
  vals.take k ++ List.replicate (k - vals.length) 0

/-- One full matrix row: the trailing slot is overwritten with
`sum(matrix[idx][:-1]) / (col - 1)` (cli.py, lines 204-209). -/
def rowWithAvg (k : Nat) (vals : List ℚ) : List ℚ :=
  fillRow k vals ++ [(fillRow k vals).sum / (k : ℚ)]

def scoreRows (k : Nat) (evals : List (List ℚ)) : List (List ℚ) :=
  evals.map (rowWithAvg k)

/-- The trailing average row (cli.py, lines 212-219): per column, the sum of
that column over all task rows divided by the number of tasks. -/
def colAverageRow (k : Nat) (evals : List (List ℚ)) : List ℚ :=
  (List.range (k + 1)).map
    (fun j => ((scoreRows k evals).map (fun r => r.getD j 0)).sum / (evals.length : ℚ))

theorem rowWithAvg_getLast {k : Nat} {vals : List ℚ} (hk : vals.length = k) :
    (rowWithAvg k vals).getLast? = some (listMean vals) := by
  subst hk
  have hfill : fillRow vals.length vals = vals := by
    simp [fillRow]
  rw [rowWithAvg, hfill, List.getLast?_concat, listMean]

theorem colAverageRow_getD {k : Nat} {evals : List (List ℚ)} {j : Nat} (hj : j < k)
    (hall : ∀ r ∈ evals, r.length = k) :
    (colAverageRow k evals).getD j 0 = listMean (evals.map (fun r => r.getD j 0)) := by
  unfold colAverageRow
  rw [List.getD_eq_getElem?_getD, List.getElem?_map, List.getElem?_range (by omega)]
  simp only [Option.map_some', Option.getD_some]
  have hmap : (scoreRows k evals).map (fun r => r.getD j 0) =
      evals.map (fun r => r.getD j 0) := by
    rw [scoreRows, List.map_map]
    apply List.map_congr_left
    intro vals hv
    have hlen : vals.length = k := hall vals hv
    have hfill : fillRow k vals = vals := by
      rw [fillRow, hlen]
      simp [← hlen]
    simp only [Function.comp_apply, rowWithAvg, hfill]
    rw [List.getD_append]
    omega
  rw [hmap, listMean, List.length_map]

/-- C7: every row of the score matrix ends with the arithmetic mean of that
row metric values, the trailing average row holds per metric column the mean
of that column over all task rows, and on the records `[[2,4],[6,8]]` the row
averages are 3 and 7 and the column averages 4 and 6. -/
theorem score_matrix_averages :
    (∀ (k : Nat) (vals : List ℚ), vals.length = k →
      (rowWithAvg k vals).getLast? = some (listMean vals)) ∧
    (∀ (k : Nat) (evals : List (List ℚ)) (j : Nat), j < k →
      (∀ r ∈ evals, r.length = k) →
      (colAverageRow k evals).getD j 0 = listMean (evals.map (fun r => r.getD j 0))) ∧
    scoreRows 2 [[2, 4], [6, 8]] = [[2, 4, 3], [6, 8, 7]] ∧
    colAverageRow 2 [[2, 4], [6, 8]] = [4, 6, 5] := by
  refine ⟨fun k vals hk => rowWithAvg_getLast hk,
    fun k evals j hj hall => colAverageRow_getD hj hall, ?_, ?_⟩
  · show scoreRows 2 [[2, 4], [6, 8]] = [[2, 4, 3], [6, 8, 7]]
    norm_num [scoreRows, rowWithAvg, fillRow]
  · show colAverageRow 2 [[2, 4], [6, 8]] = [4, 6, 5]
    norm_num [colAverageRow, scoreRows, rowWithAvg, fillRow, List.range_succ]

theorem score_matrix_averages_witness :
    (rowWithAvg 2 [2, 4]).getLast? = some (listMean [2, 4]) ∧
    (colAverageRow 2 [[2, 4], [6, 8]]).getD 0 0 =
      listMean ([[2, 4], [6, 8]].map (fun r => r.getD 0 0)) := by
  constructor
  · exact score_matrix_averages.1 2 [2, 4] (by decide)
  · exact score_matrix_averages.2.1 2 [[2, 4], [6, 8]] 0 (by decide)
      (by intro r hr; fin_cases hr <;> rfl)

/-! ## Direction graph building (src/elmes/directions.py, lines 13-55)

The langgraph `StateGraph` is modelled by its node list and edge lists.
Nodes are registered once per `agent_map` key before the edge loop
(line 31-32); the edge loop itself never adds a node.  The sentinels are the
langgraph constants; `routerEval` stands for the unchecked `eval` of a router
expression, `none` meaning the evaluation raised. -/

structure SGraph where
  nodes : List String
  edges : List (String × String)
  condEdges : List (String × String)
deriving DecidableEq

def startSentinel : String := "__start__"

def endSentinel : String := "__end__"

/-- `add_node_to_graph` (directions.py, lines 13-17): register a node only if
it is not present yet. -/
def add_node_to_graph (g : SGraph) (nodeId : String) : SGraph :=
  if nodeId ∈ g.nodes then g else { g with nodes := g.nodes ++ [nodeId] }

/-- One iteration of the edge loop of `apply_agent_direction_from_dict`
(lines 34-52): split on `"->"` and strip (a generator unpacking into exactly
two names, else `ValueError`), rewrite `START`, dispatch on `router:` /
`END` / agent lookup (`KeyError` when the target is not an agent). -/
def applyOneDirection (agentKeys : List String) (routerEval : String → Option Unit)
    (g : SGraph) (d : String) : Option SGraph :=
  match (splitList d.data "->".data).map pyStrip with
  | [a, b] =>
    let startNode := if String.mk a = "START" then startSentinel else String.mk a
    if ("router:".data).isPrefixOf b then
      match routerEval (String.mk (b.drop 7)) with
      | none => none
      | some _ => some { g with condEdges := g.condEdges ++ [(startNode, String.mk (b.drop 7))] }
    else if String.mk b = "END" then
      some { g with edges := g.edges ++ [(startNode, endSentinel)] }
    else if String.mk b ∈ agentKeys then
      some { g with edges := g.edges ++ [(startNode, String.mk b)] }
    else none
  | _ => none

/-- `apply_agent_direction_from_dict`: all `agent_map` keys become nodes, then
the direction list is folded over the edge loop. -/
def apply_agent_direction_from_dict (agentKeys : List String) (directions : List String)
    (routerEval : String → Option Unit) : Option SGraph :=
  directions.foldlM (applyOneDirection agentKeys routerEval) ⟨agentKeys, [], []⟩

theorem applyOneDirection_nodes {agentKeys : List String}
    {routerEval : String → Option Unit} {g g2 : SGraph} {d : String}
    (h : applyOneDirection agentKeys routerEval g d = some g2) :
    g2.nodes = g.nodes := by
  unfold applyOneDirection at h
  repeat' split at h
  all_goals (cases h <;> rfl)

theorem foldlM_direction_nodes {agentKeys : List String}
    {routerEval : String → Option Unit} :
    ∀ (dirs : List String) (g0 g : SGraph),
      dirs.foldlM (applyOneDirection agentKeys routerEval) g0 = some g →
      g.nodes = g0.nodes := by
  intro dirs
  induction dirs with
  | nil =>
    intro g0 g h
    simp only [List.foldlM_nil] at h
    cases h
    rfl
  | cons d t ih =>
    intro g0 g h
    rw [List.foldlM_cons] at h
    cases hstep : applyOneDirection agentKeys routerEval g0 d with
    | none => rw [hstep] at h; cases h
    | some g1 =>
      rw [hstep] at h
      have h1 := ih g1 g h
      rw [h1, applyOneDirection_nodes hstep]

/-- C8: a successfully built direction graph has exactly the `agent_map` keys
as nodes, independently of how many direction edges reference each agent —
under distinct keys every identifier occurs exactly once — and registering an
already-present node through `add_node_to_graph` leaves the graph
unchanged. -/
theorem direction_nodes (agentKeys : List String) (dirs : List String)
    (routerEval : String → Option Unit) (g : SGraph)
    (h : apply_agent_direction_from_dict agentKeys dirs routerEval = some g) :
    g.nodes = agentKeys ∧
    (agentKeys.Nodup →
      ∀ nid, g.nodes.count nid = if nid ∈ agentKeys then 1 else 0) ∧
    (∀ (g2 : SGraph) (nid : String), nid ∈ g2.nodes → add_node_to_graph g2 nid = g2) := by
  have hnodes : g.nodes = agentKeys := foldlM_direction_nodes dirs ⟨agentKeys, [], []⟩ g h
  refine ⟨hnodes, ?_, ?_⟩
  · intro hnd nid
    rw [hnodes]
    by_cases hmem : nid ∈ agentKeys
    · rw [if_pos hmem]
      exact List.count_eq_one_of_mem hnd hmem
    · rw [if_neg hmem]
      exact List.count_eq_zero_of_not_mem hmem
  · intro g2 nid hmem
    unfold add_node_to_graph
    rw [if_pos hmem]

theorem direction_nodes_witness :
    (SGraph.nodes ⟨["a", "b"],
        [(startSentinel, "a"), ("a", "b"), ("b", "a"), ("b", endSentinel)], []⟩ : List String) =
      ["a", "b"] ∧
    (List.count "a" (SGraph.nodes ⟨["a", "b"],
        [(startSentinel, "a"), ("a", "b"), ("b", "a"), ("b", endSentinel)], []⟩)) = 1 := by
  have h := direction_nodes ["a", "b"] ["START -> a", "a -> b", "b -> a", "b -> END"]
    (fun _ => some ())
    ⟨["a", "b"], [(startSentinel, "a"), ("a", "b"), ("b", "a"), ("b", endSentinel)], []⟩
    (by decide)
  refine ⟨h.1, ?_⟩
  have h2 := h.2.1 (by decide) "a"
  rw [if_pos (show "a" ∈ ["a", "b"] by decide)] at h2
  exact h2

/-! ## Heap-instrumented `replace_prompt` for the frame property (C9)

Python objects live on a heap; `replace_prompt` receives references.  The
heap is a list of prompt objects addressed by index, `deepcopy` allocates a
fresh object at the end, and the only write of the function
(`p.content = ...` in the Prompt branch) goes through `setContent` on the
fresh copy.  The dict branch only reads (it builds a fresh result dict). -/

structure PObj where
  isPrompt : Bool
  role : String
  content : Option String
deriving DecidableEq, Inhabited

structure Store where
  objs : List PObj
deriving DecidableEq

def getObj (st : Store) (r : Nat) : PObj := st.objs.getD r default

/-- `copy.deepcopy(p)`: allocate a fresh object with the same value and
return the fresh reference. -/
def deepcopy (st : Store) (r : Nat) : Nat × Store :=
  (st.objs.length, ⟨st.objs ++ [getObj st r]⟩)

/-- `p.content = v`: in-place update of the object behind reference `r`. -/
def setContent (st : Store) (r : Nat) (v : String) : Store :=
  ⟨st.objs.set r { getObj st r with content := some v }⟩

/-- One loop iteration of `replace_prompt` on the heap: `p = deepcopy(p)`
first, then either the cumulative in-place substitutions of the Prompt branch
on the copy, or the read-only dict branch. -/
def replaceOneST (st : Store) (r : Nat) (pm : List (String × String)) :
    PDictOut × Store :=
  let cr := (deepcopy st r).1
  let st1 := (deepcopy st r).2
  if (getObj st1 cr).isPrompt then
    let st2 := pm.foldl (fun st3 kv =>
      setContent st3 cr
        (strReplace ((getObj st3 cr).content.getD "") (braceKey kv.1) kv.2)) st1
    (⟨(getObj st2 cr).role, (getObj st2 cr).content⟩, st2)
  else
    (⟨(getObj st1 cr).role, (replaceDictC (getObj st1 cr).content pm).getD none⟩, st1)

/-- `replace_prompt` on the heap, over a list of prompt references. -/
def replacePromptST (st : Store) (rs : List Nat) (pm : List (String × String)) :
    List PDictOut × Store :=
  rs.foldl (fun acc r =>
    ((acc.1 ++ [(replaceOneST acc.2 r pm).1]), (replaceOneST acc.2 r pm).2)) ([], st)

theorem take_set_of_le {α : Type} :
    ∀ (l : List α) (i : Nat) (x : α) (n : Nat), n ≤ i → (l.set i x).take n = l.take n := by
  intro l
  induction l with
  | nil => intro i x n _; simp
  | cons a t ih =>
    intro i x n hn
    cases i with
    | zero =>
      have : n = 0 := by omega
      subst this
      simp
    | succ i' =>
      cases n with
      | zero => simp
      | succ n' =>
        simp only [List.set_cons_succ, List.take_succ_cons]
        rw [ih i' x n' (by omega)]

theorem setContent_take {st : Store} {r : Nat} {v : String} {n : Nat} (hn : n ≤ r) :
    (setContent st r v).objs.take n = st.objs.take n := by
  unfold setContent
  exact take_set_of_le st.objs r _ n hn

theorem setContent_length (st : Store) (r : Nat) (v : String) :
    (setContent st r v).objs.length = st.objs.length := by
  simp [setContent]

theorem foldl_setContent_take {cr n : Nat} (hn : n ≤ cr)
    (g : Store → String × String → String) :
    ∀ (pm : List (String × String)) (st : Store),
      ((pm.foldl (fun st3 kv => setContent st3 cr (g st3 kv)) st).objs.take n) =
        st.objs.take n := by
  intro pm
  induction pm with
  | nil => intro st; rfl
  | cons kv pm' ih =>
    intro st
    rw [List.foldl_cons, ih]
    exact setContent_take hn

theorem foldl_setContent_length {cr : Nat} (g : Store → String × String → String) :
    ∀ (pm : List (String × String)) (st : Store),
      ((pm.foldl (fun st3 kv => setContent st3 cr (g st3 kv)) st).objs.length) =
        st.objs.length := by
  intro pm
  induction pm with
  | nil => intro st; rfl
  | cons kv pm' ih =>
    intro st
    rw [List.foldl_cons, ih, setContent_length]

theorem replaceOneST_take {st : Store} {r : Nat} {pm : List (String × String)} {n : Nat}
    (hn : n ≤ st.objs.length) :
    ((replaceOneST st r pm).2).objs.take n = st.objs.take n := by
  unfold replaceOneST
  dsimp only
  have happ : ((deepcopy st r).2).objs.take n = st.objs.take n := by
    unfold deepcopy
    simp only
    rw [List.take_append_of_le_length hn]
  split
  · simp only
    rw [foldl_setContent_take (by simp [deepcopy]; omega) _ pm (deepcopy st r).2]
    exact happ
  · exact happ

theorem replaceOneST_length {st : Store} {r : Nat} {pm : List (String × String)} :
    st.objs.length ≤ ((replaceOneST st r pm).2).objs.length := by
  unfold replaceOneST
  dsimp only
  split
  · simp only
    rw [foldl_setContent_length]
    simp [deepcopy]
  · simp [deepcopy]

/-- C9: `replace_prompt` never mutates its input objects — after the call the
heap restricted to the pre-existing objects is unchanged, whatever list of
prompt references, substitution map and initial heap are given, because the
only write goes to the deep copy allocated past the old heap end. -/
theorem replacePromptST_frame (st : Store) (rs : List Nat)
    (pm : List (String × String)) :
    ((replacePromptST st rs pm).2).objs.take st.objs.length = st.objs := by
  suffices h : ∀ (rs : List Nat) (acc : List PDictOut) (st2 : Store),
      st.objs.length ≤ st2.objs.length →
      st2.objs.take st.objs.length = st.objs →
      ((rs.foldl (fun acc2 r =>
          ((acc2.1 ++ [(replaceOneST acc2.2 r pm).1]), (replaceOneST acc2.2 r pm).2))
        (acc, st2)).2).objs.take st.objs.length = st.objs by
    exact h rs [] st (le_refl _) (by simp)
  intro rs
  induction rs with
  | nil =>
    intro acc st2 _ htake
    exact htake
  | cons r rs' ih =>
    intro acc st2 hlen htake
    rw [List.foldl_cons]
    refine ih _ _ (le_trans hlen replaceOneST_length) ?_
    calc ((replaceOneST (acc, st2).2 r pm).2).objs.take st.objs.length
        = st2.objs.take st.objs.length := replaceOneST_take hlen
      _ = st.objs := htake

/-! ## Transcript export `aexport` (src/src/elmes/cli.py, lines 67-101) -/

structure CkptMsg where
  name : Option String
  content : String
deriving DecidableEq

structure ExpMsg where
  role : String
  content : String
  reasoning : String
deriving DecidableEq

def thinkDelim : List Char := "</think>".data

/-- One checkpointed message through the export loop (cli.py, lines 77-89):
a message whose `name` is `None` is skipped; otherwise when the literal
delimiter occurs in the content, the content is split on it, `reasoning`
becoming the stripped part before the first delimiter and the exported
content (`response`) the stripped second split part; with no delimiter the
reasoning is empty and the response the stripped content.  The exported
`role` is the speaker name. -/
def aexportMsg (m : CkptMsg) : Option ExpMsg :=
  match m.name with
  | none => none
  | some n =>
    if (firstOcc thinkDelim m.content.data).isSome then
      some ⟨n, String.mk (pyStrip ((splitList m.content.data thinkDelim).getD 1 [])),
        String.mk (pyStrip ((splitList m.content.data thinkDelim).getD 0 []))⟩
    else
      some ⟨n, String.mk (pyStrip m.content.data), ""⟩

/-- The exported message log: the checkpointed messages that survive the
name filter, transformed. -/
def aexportMessages (ms : List CkptMsg) : List ExpMsg := ms.filterMap aexportMsg

/-- C10: a checkpointed message without a speaker name — such as the initial
start prompt — never appears in the export; a named message whose content is
`pre ++ "</think>" ++ post` (with no earlier or later delimiter occurrence)
exports with stripped reasoning `pre` and stripped response `post`; and a
named message without the delimiter exports with empty reasoning and its
stripped content as response. -/
theorem aexport_filter_split :
    (∀ (c : String) (ms : List CkptMsg),
      aexportMessages (⟨none, c⟩ :: ms) = aexportMessages ms) ∧
    (∀ (n : String) (pre post : List Char),
      (∀ i, i < pre.length →
        thinkDelim.isPrefixOf ((pre ++ thinkDelim ++ post).drop i) = false) →
      firstOcc thinkDelim post = none →
      aexportMsg ⟨some n, String.mk (pre ++ thinkDelim ++ post)⟩ =
        some ⟨n, String.mk (pyStrip post), String.mk (pyStrip pre)⟩) ∧
    (∀ (n : String) (c : String), firstOcc thinkDelim c.data = none →
      aexportMsg ⟨some n, c⟩ = some ⟨n, String.mk (pyStrip c.data), ""⟩) := by
  refine ⟨?_, ?_, ?_⟩
  · intro c ms
    simp only [aexportMessages, List.filterMap_cons]
    rfl
  · intro n pre post h1 h2
    have hocc : firstOcc thinkDelim (pre ++ thinkDelim ++ post) = some pre.length :=
      firstOcc_append pre h1
    have hsplit : splitList (pre ++ thinkDelim ++ post) thinkDelim = [pre, post] :=
      splitList_append thinkDelim pre post (by decide) h1 h2
    show (if (firstOcc thinkDelim (pre ++ thinkDelim ++ post)).isSome then _ else _) = _
    rw [hocc]
    simp only [Option.isSome_some, if_true]
    rw [hsplit]
    rfl
  · intro n c h
    show (if (firstOcc thinkDelim c.data).isSome then _ else _) = _
    rw [h]
    rfl

theorem aexport_filter_split_witness :
    aexportMessages [⟨none, "start prompt"⟩] = [] ∧
    aexportMsg ⟨some "t", String.mk ("abc".data ++ thinkDelim ++ " xy".data)⟩ =
      some ⟨"t", String.mk (pyStrip " xy".data), String.mk (pyStrip "abc".data)⟩ ∧
    aexportMsg ⟨some "s", "plain"⟩ = some ⟨"s", String.mk (pyStrip "plain".data), ""⟩ := by
  refine ⟨?_, ?_, ?_⟩
  · have h := aexport_filter_split.1 "start prompt" []
    simpa using h
  · exact aexport_filter_split.2.1 "t" "abc".data " xy".data (by decide) (by decide)
  · exact aexport_filter_split.2.2 "s" "plain" (by decide)

end Elmes
